import Mathlib

/-!
Verification development for the `SQLHighlight` component of WrenAI
(`src/wren-ui/src/components/pages/home/thread/feedback/SQLHighlight.tsx`,
plus the unnamed earlier variant in `src/unnamed/part_000`).

The component is a pure text-to-markup transformer.  We embed it as
`SqlHl.annotate : List Char → List Reference → Option (List (List Segment))`:
JavaScript strings are lists of characters, a thrown exception is `none`,
and each rendered `<mark>`/`<span>` node is a `Segment` carrying its text
and (for marks) the list of references whose individual snippet regex
matched the piece.

The JavaScript regular-expression behaviour the component relies on is
embedded by a small regex AST (`Regex`), a preference-ordered backtracking
matcher (`matchEnds`, fuel-based so that it reduces in the kernel), a
parser (`parseRx`) for the pattern subset the component can build
(literals, the escapes `\(` `\)` `\s` `\\` `\.`, groups, alternation, the
quantifiers `?` `*` `+` and their lazy forms, and `.`), ECMAScript
`String.prototype.split` with one capturing group (`splitCapture`), and the
stateful `RegExp.prototype.test` of a `g`-flagged regex, whose `lastIndex`
is threaded through the classification loop (`testG`, `classify`).
Patterns using constructs outside this subset (for example character
classes) make `parseRx` return `none`; such references are outside the
model, matching the spec's stated limitation on unescaped metacharacters.
-/

namespace SqlHl

/-- `sqlLocation` object of a reference: a 1-based line number. -/
structure SqlLocation where
  line : Int
deriving DecidableEq

/-- Modelled from the spec: the `Reference` interface is declared in the
`./utils` module, which is not among the sources; its fields are taken from
spec section 3 (`referenceNum` opaque display id, `type` icon category,
`sqlSnippet` literal substring, `sqlLocation` optional 1-based location).
`sqlLocation : Option SqlLocation` models the field being possibly absent. -/
structure Reference where
  referenceNum : Nat
  type : String
  sqlSnippet : List Char
  sqlLocation : Option SqlLocation
deriving DecidableEq

/-- One rendered piece of a line: a `<span>` (plain) or a `<mark>` (matched)
with the references whose individual snippet pattern matched the piece. -/
inductive Segment where
  | plain (text : List Char) : Segment
  | matched (text : List Char) (references : List Reference) : Segment
deriving DecidableEq

/-- Text content of a segment. -/
def segText : Segment → List Char
  | .plain t => t
  | .matched t _ => t

/-- References attached to a segment (empty for plain segments). -/
def segRefs : Segment → List Reference
  | .plain _ => []
  | .matched _ rs => rs

/-- Regex AST for the pattern subset the component constructs. -/
inductive Regex where
  | epsilon : Regex
  | char (c : Char) : Regex
  | ws : Regex
  | any : Regex
  | concat (r1 r2 : Regex) : Regex
  | alt (r1 r2 : Regex) : Regex
  | star (r : Regex) : Regex
  | starL (r : Regex) : Regex
  | group (r : Regex) : Regex
deriving DecidableEq

/-- Characters matched by the ECMAScript `\s` class (the ASCII portion plus
NBSP; further Unicode space characters never occur in the claims). -/
def isWS (c : Char) : Bool :=
  c == ' ' || c == '\t' || c == '\n' || c == '\r' || c == '\x0b' || c == '\x0c' ||
    c == ' '

/-- Single-character comparison; case-insensitive when `ci` is set, as under
the regex `i` flag (ASCII canonicalisation). -/
def charMatch (ci : Bool) (c x : Char) : Bool :=
  if ci then c.toLower == x.toLower else c == x

/-- Syntactic size of a regex, used to compute a sufficient matcher fuel. -/
def sizeR : Regex → Nat
  | .epsilon => 1
  | .char _ => 1
  | .ws => 1
  | .any => 1
  | .concat r1 r2 => sizeR r1 + sizeR r2 + 1
  | .alt r1 r2 => sizeR r1 + sizeR r2 + 1
  | .star r => sizeR r + 1
  | .starL r => sizeR r + 1
  | .group r => sizeR r + 1

/-- Fuel that is ample for `matchEnds` on a string of length `n`. -/
def fuelFor (r : Regex) (n : Nat) : Nat :=
  (n + 1) * (sizeR r + 1) + 1

/-- All ways the regex can match a prefix of `s`, listed as the remaining
suffixes, in the ECMAScript backtracking preference order: an alternation
tries its left branch first, greedy quantifiers consume as much as
possible first, lazy ones as little as possible, and a quantifier
iteration that consumes nothing ends the repetition (ES RepeatMatcher).
The head of the returned list is the match the engine commits to. -/
def matchEnds (ci : Bool) : Nat → Regex → List Char → List (List Char)
  | 0, _, _ => []
  | fuel + 1, r, s =>
    match r with
    | .epsilon => [s]
    | .char c =>
      match s with
      | [] => []
      | x :: rest => if charMatch ci c x then [rest] else []
    | .ws =>
      match s with
      | [] => []
      | x :: rest => if isWS x then [rest] else []
    | .any =>
      match s with
      | [] => []
      | x :: rest => if x = '\n' ∨ x = '\r' then [] else [rest]
    | .concat r1 r2 =>
      (matchEnds ci fuel r1 s).flatMap (fun t => matchEnds ci fuel r2 t)
    | .alt r1 r2 => matchEnds ci fuel r1 s ++ matchEnds ci fuel r2 s
    | .star r1 =>
      ((matchEnds ci fuel r1 s).filter (fun t => t.length < s.length)).flatMap
          (fun t => matchEnds ci fuel (.star r1) t) ++ [s]
    | .starL r1 =>
      s :: ((matchEnds ci fuel r1 s).filter (fun t => t.length < s.length)).flatMap
          (fun t => matchEnds ci fuel (.starL r1) t)
    | .group r1 => matchEnds ci fuel r1 s

/-- Attach a quantifier (with optional lazy marker) following an atom.
Greedy `?` is `alt r ε`, lazy `??` is `alt ε r`, `+` is `r` then a star. -/
def applyQuant (r : Regex) (cs : List Char) : Regex × List Char :=
  match cs with
  | '?' :: '?' :: rest => (.alt .epsilon r, rest)
  | '?' :: rest => (.alt r .epsilon, rest)
  | '*' :: '?' :: rest => (.starL r, rest)
  | '*' :: rest => (.star r, rest)
  | '+' :: '?' :: rest => (.concat r (.starL r), rest)
  | '+' :: rest => (.concat r (.star r), rest)
  | _ => (r, cs)

/-- Parser modes: alternation level, sequence level, single atom. -/
inductive PMode where
  | alt : PMode
  | seq : PMode
  | atom : PMode

/-- Recursive-descent parser for the supported pattern subset.  Returns the
parsed regex and the unconsumed characters, or `none` for patterns outside
the subset (which in JavaScript either throw a SyntaxError, such as a lone
quantifier, or use constructs this model does not cover). -/
def parseRx : Nat → PMode → List Char → Option (Regex × List Char)
  | 0, _, _ => none
  | fuel + 1, m, cs =>
    match m with
    | .alt =>
      match parseRx fuel .seq cs with
      | none => none
      | some (r, rest) =>
        match rest with
        | '|' :: rest2 =>
          match parseRx fuel .alt rest2 with
          | none => none
          | some (r2, rest3) => some (.alt r r2, rest3)
        | _ => some (r, rest)
    | .seq =>
      match cs with
      | [] => some (.epsilon, [])
      | c :: _ =>
        if c = '|' ∨ c = ')' then some (.epsilon, cs)
        else
          match parseRx fuel .atom cs with
          | none => none
          | some (a, rest) =>
            let (a2, rest2) := applyQuant a rest
            match parseRx fuel .seq rest2 with
            | none => none
            | some (r2, rest3) => some (.concat a2 r2, rest3)
    | .atom =>
      match cs with
      | [] => none
      | '(' :: rest =>
        match parseRx fuel .alt rest with
        | none => none
        | some (inner, rest2) =>
          match rest2 with
          | ')' :: rest3 => some (.group inner, rest3)
          | _ => none
      | '\\' :: c :: rest =>
        if c = 's' then some (.ws, rest)
        else if c = '(' ∨ c = ')' ∨ c = '\\' ∨ c = '.' ∨ c = '*' ∨ c = '+' ∨
            c = '?' ∨ c = '|' ∨ c = '^' ∨ c = '$' ∨ c = '[' ∨ c = ']' ∨
            c = '\x7b' ∨ c = '\x7d' ∨ c = '/' then
          some (.char c, rest)
        else none
      | '.' :: rest => some (.any, rest)
      | c :: rest =>
        if c = '?' ∨ c = '*' ∨ c = '+' ∨ c = ')' ∨ c = '|' ∨ c = '\\' ∨
            c = '[' ∨ c = ']' ∨ c = '\x7b' ∨ c = '\x7d' ∨ c = '^' ∨ c = '$' then
          none
        else some (.char c, rest)

/-- Compile a whole pattern string, requiring all input to be consumed. -/
def parseRegex (pat : List Char) : Option Regex :=
  match parseRx (5 * pat.length + 10) .alt pat with
  | some (r, []) => some r
  | _ => none

/-- JavaScript `str.replace(/c/g, rep)` for a single literal character. -/
def replaceAllChar (c : Char) (rep : List Char) : List Char → List Char
  | [] => []
  | x :: xs =>
    if x = c then rep ++ replaceAllChar c rep xs
    else x :: replaceAllChar c rep xs

/-- JavaScript `str.replace(/\s/g, rep)`. -/
def replaceAllWs (rep : List Char) : List Char → List Char
  | [] => []
  | x :: xs =>
    if isWS x then rep ++ replaceAllWs rep xs
    else x :: replaceAllWs rep xs

/-- `optimizedSnippet` from the source: make parens optional and whitespace
elastic, by three sequential global replaces, in source order. -/
def optimizedSnippet (snippet : List Char) : List Char :=
  replaceAllWs ['\\', 's', '*']
    (replaceAllChar ')' ['\\', ')', '?']
      (replaceAllChar '(' ['\\', '(', '?'] snippet))

/-- Character-wise transformation rule as the spec words it (section 4.1). -/
def snippetCharRule (c : Char) : List Char :=
  if c = '(' then ['\\', '(', '?']
  else if c = ')' then ['\\', ')', '?']
  else if isWS c then ['\\', 's', '*']
  else [c]

/-- The spec's description of the pattern builder: apply `snippetCharRule`
to every character independently. -/
def optimizedSnippetSpec (snippet : List Char) : List Char :=
  snippet.flatMap snippetCharRule

/-- `snippets.join('|')` from `createSnippetsRegex`. -/
def joinBar : List (List Char) → List Char
  | [] => []
  | [s] => s
  | s :: rest => s ++ '|' :: joinBar rest

/-- The full pattern text `(${snippets.join('|')})` built per line. -/
def combinedPattern (rs : List Reference) : List Char :=
  '(' :: (joinBar (rs.map (fun r => optimizedSnippet r.sqlSnippet))) ++ [')']

/-- Substring of `s` from index `a` (inclusive) to `b` (exclusive). -/
def sub (s : List Char) (a b : Nat) : List Char :=
  (s.drop a).take (b - a)

/-- Anchored ("sticky") match attempt at position `q` of `s`: the end index
of the match the engine commits to, or `none`. -/
def stickyAt (ci : Bool) (re : Regex) (s : List Char) (q : Nat) : Option Nat :=
  match matchEnds ci (fuelFor re (s.length - q)) re (s.drop q) with
  | [] => none
  | rest :: _ => some (q + ((s.length - q) - rest.length))

/-- Main loop of ECMAScript `String.prototype.split` with a regex whose
single capturing group spans the whole pattern: `p` is the start of the
pending unmatched chunk, `q` the probe position; on a match ending at
`e ≠ p` the chunk `[p,q)` and the captured match `[q,e)` are emitted.
Exhausted fuel emits the tail, preserving the tiling of `s` (the driver
always supplies sufficient fuel). -/
def splitLoop (ci : Bool) (re : Regex) (s : List Char) : Nat → Nat → Nat → List (List Char)
  | p, _, 0 => [sub s p s.length]
  | p, q, fuel + 1 =>
    if s.length ≤ q then [sub s p s.length]
    else
      match stickyAt ci re s q with
      | none => splitLoop ci re s p (q + 1) fuel
      | some e =>
        if e = p then splitLoop ci re s p (q + 1) fuel
        else sub s p q :: sub s q e :: splitLoop ci re s e e fuel

/-- `str.split(regex)` with one capturing group: alternating unmatched and
captured pieces.  The empty string is special-cased as in the ES spec
(yielding `[]` when the regex matches the empty string, else `[""]`). -/
def splitCapture (ci : Bool) (re : Regex) (s : List Char) : List (List Char) :=
  if s.length = 0 then
    match stickyAt ci re s 0 with
    | some _ => []
    | none => [[]]
  else splitLoop ci re s 0 0 (2 * s.length + 2)

/-- Search for the first match at a position `≥ i`; returns the position
and end index of the match the engine commits to. -/
def searchFrom (ci : Bool) (re : Regex) (s : List Char) : Nat → Nat → Option (Nat × Nat)
  | _, 0 => none
  | i, fuel + 1 =>
    if s.length < i then none
    else
      match matchEnds ci (fuelFor re (s.length - i)) re (s.drop i) with
      | rest :: _ => some (i, i + ((s.length - i) - rest.length))
      | [] => searchFrom ci re s (i + 1) fuel

/-- `regex.test(str)` for a `g`-flagged regex: stateful in `lastIndex`.
Takes the current `lastIndex`, returns the verdict and the new
`lastIndex` (the match end on success, 0 on failure). -/
def testG (ci : Bool) (re : Regex) (s : List Char) (li : Nat) : Bool × Nat :=
  match searchFrom ci re s li (s.length + 1 - li) with
  | some (_, e) => (true, e)
  | none => (false, 0)

/-- `new RegExp(pat).test(str)` for a fresh non-global regex. -/
def testRe (ci : Bool) (re : Regex) (s : List Char) : Bool :=
  (searchFrom ci re s 0 (s.length + 1)).isSome

/-- The inner filter of the component: re-test the piece against each
line reference's raw snippet, compiled as an unflagged (case-sensitive,
untransformed) regex.  A raw snippet outside the supported pattern subset
gives `none`, modelling the `new RegExp` SyntaxError that would be thrown. -/
def attachRefs : List Reference → List Char → Option (List Reference)
  | [], _ => some []
  | r :: rs, part =>
    match parseRegex r.sqlSnippet with
    | none => none
    | some re =>
      match attachRefs rs part with
      | none => none
      | some tail => some (if testRe false re part then r :: tail else tail)

/-- `parts.map((part, index) => ...)`: classify each piece with the shared
`g`-flagged regex (threading its `lastIndex` through the calls exactly as
JavaScript does) and, for matched pieces, attach the references whose raw
snippet regex matches the piece. -/
def classify (re : Regex) (rs : List Reference) : List (List Char) → Nat → Option (List Segment)
  | [], _ => some []
  | part :: parts, li =>
    match testG true re part li with
    | (true, li2) =>
      match attachRefs rs part with
      | none => none
      | some hits =>
        match classify re rs parts li2 with
        | none => none
        | some tail => some (.matched part hits :: tail)
    | (false, li2) =>
      match classify re rs parts li2 with
      | none => none
      | some tail => some (.plain part :: tail)

/-- `sql.split('\n')`: exhaustive split on newline; the empty string gives
one empty piece, a trailing newline gives a trailing empty piece. -/
def splitNl : List Char → List (List Char)
  | [] => [[]]
  | '\n' :: rest => [] :: splitNl rest
  | c :: rest =>
    match splitNl rest with
    | [] => [[c]]
    | l :: ls => (c :: l) :: ls

/-- `sqlArray[lineIndex]` with a JavaScript index: `none` (leading to a
TypeError on the subsequent `.split`) when out of bounds. -/
def getLine? (lines : List (List Char)) (idx : Int) : Option (List Char) :=
  if 0 ≤ idx ∧ idx < Int.ofNat lines.length then some (lines.getD idx.toNat [])
  else none

/-- Line number of a reference (only used on references that have one). -/
def lineOf (r : Reference) : Int :=
  match r.sqlLocation with
  | some loc => loc.line
  | none => 0

/-- First-occurrence deduplication worker. -/
def dedupFirstGo (seen : List Int) : List Int → List Int
  | [] => []
  | x :: xs =>
    if x ∈ seen then dedupFirstGo seen xs
    else x :: dedupFirstGo (x :: seen) xs

/-- Distinct values in first-occurrence order: `lodash.groupBy` group keys.
The component's output does not depend on the key iteration order (each
group writes a distinct line slot), so first-occurrence order is used. -/
def dedupFirst (l : List Int) : List Int :=
  dedupFirstGo [] l

/-- `groupBy(refs, r => r.sqlLocation.line)` as an association list. -/
def groupsFor (refs : List Reference) : List (Int × List Reference) :=
  (dedupFirst (refs.map lineOf)).map
    (fun L => (L, refs.filter (fun r => lineOf r == L)))

/-- Process one line group: build the alternation regex from the optimised
snippets (a `new RegExp` SyntaxError is `none`), fetch the line (an
out-of-bounds index is `none`, the TypeError on `undefined.split`), split
it and classify the pieces. -/
def processLine (sqlArray : List (List Char)) (L : Int) (rs : List Reference) :
    Option (List Segment) :=
  match parseRegex (combinedPattern rs) with
  | none => none
  | some re =>
    match getLine? sqlArray (L - 1) with
    | none => none
    | some text => classify re rs (splitCapture true re text) 0

/-- The `Object.keys(referenceGroups).forEach` loop: process every group,
an error in any group aborting the whole computation. -/
def processGroups (sqlArray : List (List Char)) :
    List (Int × List Reference) → Option (List (Int × List Segment))
  | [] => some []
  | (L, rs) :: rest =>
    match processLine sqlArray L rs with
    | none => none
    | some segs =>
      match processGroups sqlArray rest with
      | none => none
      | some tail => some ((L, segs) :: tail)

/-- Lookup of a processed line by its 1-based line number. -/
def lookupLine : List (Int × List Segment) → Int → Option (List Segment)
  | [], _ => none
  | (k, v) :: rest, key => if k = key then some v else lookupLine rest key

/-- `sqlArray.map((line, index) => highlights[index] || line)`: the final
per-line content, a processed segment list where one exists and the whole
line as a single plain segment otherwise. -/
def buildContent (sqlArray : List (List Char)) (assignments : List (Int × List Segment)) :
    List (List Segment) :=
  (List.range sqlArray.length).map (fun i =>
    match lookupLine assignments (Int.ofNat i + 1) with
    | some segs => segs
    | none => [Segment.plain (sqlArray.getD i [])])

/-- The `SQLHighlight` component of `SQLHighlight.tsx`: references without
a `sqlLocation` are filtered out, the rest are grouped by declared line,
each group's line is split by the alternation of its optimised snippets
and classified; `none` models a thrown exception. -/
def annotate (sql : List Char) (references : List Reference) :
    Option (List (List Segment)) :=
  let sqlArray := splitNl sql
  let validRefs := references.filter (fun r => r.sqlLocation.isSome)
  match processGroups sqlArray (groupsFor validRefs) with
  | none => none
  | some assignments => some (buildContent sqlArray assignments)

/-- Concatenation of a list of character lists. -/
def concatL : List (List Char) → List Char
  | [] => []
  | x :: xs => x ++ concatL xs

/-- Concatenated text of a line's segments. -/
def concatTexts (segs : List Segment) : List Char :=
  concatL (segs.map segText)

/-- Each line rendered unprocessed, as a single plain segment. -/
def passthrough (sql : List Char) : List (List Segment) :=
  (splitNl sql).map (fun line => [Segment.plain line])

/-- The reference's raw snippet regex finds no match on the line its
`sqlLocation` declares (degenerate cases - no location, line out of
bounds, unparseable raw snippet - count as unmatched). -/
def snippetUnmatchedOnOwnLine (sql : List Char) (r : Reference) : Bool :=
  match r.sqlLocation with
  | none => true
  | some loc =>
    match getLine? (splitNl sql) (loc.line - 1) with
    | none => true
    | some text =>
      match parseRegex r.sqlSnippet with
      | none => true
      | some re => !(testRe false re text)

/-- A snippet's optimised pattern, compiled with the `i` flag, matches the
given text (used to state the tolerance consequences of section 4.1). -/
def optMatches (snippet text : List Char) : Bool :=
  match parseRegex (optimizedSnippet snippet) with
  | some re => testRe true re text
  | none => false

/-! ### The unnamed variant (`src/unnamed/part_000`)

It differs from the main component in two ways: the references are grouped
by `reference.sqlLocation.line` without first filtering out references
lacking a `sqlLocation` (a TypeError on the property access when one is
missing), and the reference-association filter names its parameter
`snippet` but receives the reference object, so `new RegExp(snippet)`
stringifies it to the pattern text `[object Object]` - a single character
class (its contents run to the final `]`), so `.test(part)` holds exactly
when `part` contains one of the class characters; we model the observable
effect of the filter through `variantAttach`. -/

/-- Characters of the accidental `[object Object]` character class. -/
def objectClassChars : List Char :=
  ['o', 'b', 'j', 'e', 'c', 't', ' ', 'O']

/-- `new RegExp('[object Object]').test(part)`: the pattern is one
character class, so the test holds iff some character of `part` is in it. -/
def variantAttachTest (part : List Char) : Bool :=
  part.any (fun c => objectClassChars.contains c)

/-- The variant's association filter: every line reference is tested with
the same stringified-object pattern. -/
def variantAttach (rs : List Reference) (part : List Char) : List Reference :=
  rs.filter (fun _ => variantAttachTest part)

/-- The variant's `parts.map`: same split/classification, association via
the accidental pattern (total: `new RegExp('[object Object]')` is valid). -/
def classifyVariant (re : Regex) (rs : List Reference) :
    List (List Char) → Nat → List Segment
  | [], _ => []
  | part :: parts, li =>
    match testG true re part li with
    | (true, li2) => .matched part (variantAttach rs part) :: classifyVariant re rs parts li2
    | (false, li2) => .plain part :: classifyVariant re rs parts li2

/-- One group of the variant's loop. -/
def processLineVariant (sqlArray : List (List Char)) (L : Int) (rs : List Reference) :
    Option (List Segment) :=
  match parseRegex (combinedPattern rs) with
  | none => none
  | some re =>
    match getLine? sqlArray (L - 1) with
    | none => none
    | some text => some (classifyVariant re rs (splitCapture true re text) 0)

/-- All groups of the variant's loop. -/
def processGroupsVariant (sqlArray : List (List Char)) :
    List (Int × List Reference) → Option (List (Int × List Segment))
  | [] => some []
  | (L, rs) :: rest =>
    match processLineVariant sqlArray L rs with
    | none => none
    | some segs =>
      match processGroupsVariant sqlArray rest with
      | none => none
      | some tail => some ((L, segs) :: tail)

/-- The `groupBy` iteratee of the variant reads `reference.sqlLocation.line`
on every reference with no guard: `none` as soon as one lacks a location. -/
def getLines0 : List Reference → Option (List Int)
  | [] => some []
  | r :: rs =>
    match r.sqlLocation with
    | none => none
    | some loc =>
      match getLines0 rs with
      | none => none
      | some tail => some (loc.line :: tail)

/-- The `SQLHighlight` of `src/unnamed/part_000`: no location filter (the
grouping itself errors on a missing `sqlLocation`), then the same per-line
processing with the variant's association filter. -/
def annotateVariant (sql : List Char) (references : List Reference) :
    Option (List (List Segment)) :=
  let sqlArray := splitNl sql
  match getLines0 references with
  | none => none
  | some _ =>
    match processGroupsVariant sqlArray (groupsFor references) with
    | none => none
    | some assignments => some (buildContent sqlArray assignments)

/-! ### Basic lemmas about the split loop: the pieces tile the input -/

theorem sub_append_drop (s : List Char) (p q : Nat) (h : p ≤ q) :
    sub s p q ++ s.drop q = s.drop p := by
  have hdrop : s.drop q = (s.drop p).drop (q - p) := by
    rw [List.drop_drop]
    congr 1
    omega
  rw [sub, hdrop, List.take_append_drop]

theorem sub_full (s : List Char) (p : Nat) : sub s p s.length = s.drop p := by
  have h : s.length - p = (s.drop p).length := by
    rw [List.length_drop]
  rw [sub, h, List.take_length]

theorem stickyAt_ge {ci : Bool} {re : Regex} {s : List Char} {q e : Nat}
    (h : stickyAt ci re s q = some e) : q ≤ e := by
  unfold stickyAt at h
  rcases hm : matchEnds ci (fuelFor re (s.length - q)) re (s.drop q) with _ | ⟨rest, tail⟩
  · rw [hm] at h; exact absurd h (by simp)
  · rw [hm] at h
    have : q + ((s.length - q) - rest.length) = e := by
      have := h
      injection this
    omega

theorem splitLoop_concat (ci : Bool) (re : Regex) (s : List Char) :
    ∀ fuel p q, p ≤ q → concatL (splitLoop ci re s p q fuel) = s.drop p := by
  intro fuel
  induction fuel with
  | zero =>
    intro p q _
    simp [splitLoop, concatL, sub_full]
  | succ fuel ih =>
    intro p q hpq
    rw [splitLoop]
    by_cases hq : s.length ≤ q
    · simp [hq, concatL, sub_full]
    · simp only [if_neg hq]
      rcases hs : stickyAt ci re s q with _ | e
      · exact ih p (q + 1) (by omega)
      · have hqe : q ≤ e := stickyAt_ge hs
        by_cases hep : e = p
        · simp only [if_pos hep]
          exact ih p (q + 1) (by omega)
        · simp only [if_neg hep]
          rw [concatL, concatL, ih e e (by omega), ← List.append_assoc,
            List.append_assoc (sub s p q), sub_append_drop s q e hqe,
            sub_append_drop s p q hpq]

theorem splitCapture_concat (ci : Bool) (re : Regex) (s : List Char) :
    concatL (splitCapture ci re s) = s := by
  unfold splitCapture
  by_cases h : s.length = 0
  · have hs : s = [] := List.length_eq_zero.mp h
    subst hs
    rcases hm : stickyAt ci re [] 0 with _ | e <;> simp [hm, concatL]
  · simp only [if_neg h]
    have := splitLoop_concat ci re s (2 * s.length + 2) 0 0 (le_refl 0)
    simpa using this

theorem splitLoop_sub (ci : Bool) (re : Regex) (s : List Char) :
    ∀ fuel p q part, part ∈ splitLoop ci re s p q fuel → ∃ a b, part = sub s a b := by
  intro fuel
  induction fuel with
  | zero =>
    intro p q part hmem
    simp only [splitLoop, List.mem_singleton] at hmem
    exact ⟨p, s.length, hmem⟩
  | succ fuel ih =>
    intro p q part hmem
    rw [splitLoop] at hmem
    by_cases hq : s.length ≤ q
    · simp only [if_pos hq, List.mem_singleton] at hmem
      exact ⟨p, s.length, hmem⟩
    · simp only [if_neg hq] at hmem
      rcases hs : stickyAt ci re s q with _ | e <;> simp only [hs] at hmem
      · exact ih p (q + 1) part hmem
      · by_cases hep : e = p
        · rw [if_pos hep] at hmem
          exact ih p (q + 1) part hmem
        · rw [if_neg hep] at hmem
          simp only [List.mem_cons] at hmem
          rcases hmem with h | h | h
          · exact ⟨p, q, h⟩
          · exact ⟨q, e, h⟩
          · exact ih e e part h

theorem splitCapture_sub (ci : Bool) (re : Regex) (s : List Char) (part : List Char)
    (h : part ∈ splitCapture ci re s) : ∃ a b, part = sub s a b := by
  unfold splitCapture at h
  by_cases hlen : s.length = 0
  · rw [if_pos hlen] at h
    rcases hm : stickyAt ci re s 0 with _ | e <;> simp only [hm] at h
    · simp only [List.mem_singleton] at h
      exact ⟨0, 0, by simp [h, sub]⟩
    · simp at h
  · rw [if_neg hlen] at h
    exact splitLoop_sub ci re s (2 * s.length + 2) 0 0 part h

/-! ### Matcher lemmas: fuel monotonicity and stability under appending -/

theorem matchEnds_mono (ci : Bool) :
    ∀ fuel fuel' r s e, fuel ≤ fuel' → e ∈ matchEnds ci fuel r s →
      e ∈ matchEnds ci fuel' r s := by
  intro fuel
  induction fuel with
  | zero => intro fuel' r s e _ h; simp [matchEnds] at h
  | succ fuel ih =>
    intro fuel' r s e hle h
    rcases fuel' with _ | fuel'
    · omega
    have hle' : fuel ≤ fuel' := by omega
    cases r with
    | epsilon => simpa [matchEnds] using (by simpa [matchEnds] using h)
    | char c =>
      simp only [matchEnds] at h ⊢
      rcases s with _ | ⟨x, rest⟩ <;> simp_all
    | ws =>
      simp only [matchEnds] at h ⊢
      rcases s with _ | ⟨x, rest⟩ <;> simp_all
    | any =>
      simp only [matchEnds] at h ⊢
      rcases s with _ | ⟨x, rest⟩ <;> simp_all
    | concat r1 r2 =>
      simp only [matchEnds, List.mem_flatMap] at h ⊢
      rcases h with ⟨m, hm, he⟩
      exact ⟨m, ih fuel' r1 s m hle' hm, ih fuel' r2 m e hle' he⟩
    | alt r1 r2 =>
      simp only [matchEnds, List.mem_append] at h ⊢
      rcases h with h | h
      · exact Or.inl (ih fuel' r1 s e hle' h)
      · exact Or.inr (ih fuel' r2 s e hle' h)
    | star r1 =>
      simp only [matchEnds, List.mem_append, List.mem_flatMap, List.mem_filter,
        List.mem_singleton] at h ⊢
      rcases h with ⟨m, ⟨hm, hlen⟩, he⟩ | h
      · exact Or.inl ⟨m, ⟨ih fuel' r1 s m hle' hm, hlen⟩, ih fuel' (.star r1) m e hle' he⟩
      · exact Or.inr h
    | starL r1 =>
      simp only [matchEnds, List.mem_cons, List.mem_flatMap, List.mem_filter] at h ⊢
      rcases h with h | ⟨m, ⟨hm, hlen⟩, he⟩
      · exact Or.inl h
      · exact Or.inr ⟨m, ⟨ih fuel' r1 s m hle' hm, hlen⟩, ih fuel' (.starL r1) m e hle' he⟩
    | group r1 =>
      simp only [matchEnds] at h ⊢
      exact ih fuel' r1 s e hle' h

theorem matchEnds_append (ci : Bool) :
    ∀ fuel r s t e, e ∈ matchEnds ci fuel r s →
      e ++ t ∈ matchEnds ci fuel r (s ++ t) := by
  intro fuel
  induction fuel with
  | zero => intro r s t e h; simp [matchEnds] at h
  | succ fuel ih =>
    intro r s t e h
    cases r with
    | epsilon =>
      simp only [matchEnds, List.mem_singleton] at h ⊢
      rw [h]
    | char c =>
      simp only [matchEnds] at h ⊢
      rcases s with _ | ⟨x, rest⟩
      · simp at h
      · by_cases hc : charMatch ci c x = true
        · simp [hc] at h ⊢; rw [h]
        · simp [hc] at h
    | ws =>
      simp only [matchEnds] at h ⊢
      rcases s with _ | ⟨x, rest⟩
      · simp at h
      · by_cases hc : isWS x = true
        · simp [hc] at h ⊢; rw [h]
        · simp [hc] at h
    | any =>
      simp only [matchEnds] at h ⊢
      rcases s with _ | ⟨x, rest⟩
      · simp at h
      · by_cases hc : x = '\n' ∨ x = '\r'
        · simp [hc] at h
        · simp [hc] at h ⊢; rw [h]
    | concat r1 r2 =>
      simp only [matchEnds, List.mem_flatMap] at h ⊢
      rcases h with ⟨m, hm, he⟩
      exact ⟨m ++ t, ih r1 s t m hm, ih r2 m t e he⟩
    | alt r1 r2 =>
      simp only [matchEnds, List.mem_append] at h ⊢
      rcases h with h | h
      · exact Or.inl (ih r1 s t e h)
      · exact Or.inr (ih r2 s t e h)
    | star r1 =>
      simp only [matchEnds, List.mem_append, List.mem_flatMap, List.mem_filter,
        List.mem_singleton] at h ⊢
      rcases h with ⟨m, ⟨hm, hlen⟩, he⟩ | h
      · refine Or.inl ⟨m ++ t, ⟨ih r1 s t m hm, ?_⟩, ih (.star r1) m t e he⟩
        simp only [List.length_append]
        simp only [decide_eq_true_eq] at hlen ⊢
        omega
      · exact Or.inr (by rw [h])
    | starL r1 =>
      simp only [matchEnds, List.mem_cons, List.mem_flatMap, List.mem_filter] at h ⊢
      rcases h with h | ⟨m, ⟨hm, hlen⟩, he⟩
      · exact Or.inl (by rw [h])
      · refine Or.inr ⟨m ++ t, ⟨ih r1 s t m hm, ?_⟩, ih (.starL r1) m t e he⟩
        simp only [List.length_append]
        simp only [decide_eq_true_eq] at hlen ⊢
        omega
    | group r1 =>
      simp only [matchEnds] at h ⊢
      exact ih r1 s t e h

/-! ### Search and test lemmas -/

theorem fuelFor_mono (r : Regex) {n m : Nat} (h : n ≤ m) : fuelFor r n ≤ fuelFor r m := by
  unfold fuelFor
  have := Nat.mul_le_mul_right (sizeR r + 1) (Nat.add_le_add_right h 1)
  omega

theorem searchFrom_some {ci : Bool} {re : Regex} {s : List Char} :
    ∀ {fuel i j e}, searchFrom ci re s i fuel = some (j, e) →
      i ≤ j ∧ j ≤ s.length ∧ matchEnds ci (fuelFor re (s.length - j)) re (s.drop j) ≠ [] := by
  intro fuel
  induction fuel with
  | zero => intro i j e h; simp [searchFrom] at h
  | succ fuel ih =>
    intro i j e h
    rw [searchFrom] at h
    by_cases hlen : s.length < i
    · rw [if_pos hlen] at h; exact absurd h (by simp)
    · rw [if_neg hlen] at h
      rcases hm : matchEnds ci (fuelFor re (s.length - i)) re (s.drop i) with _ | ⟨rest, tail⟩ <;>
        rw [hm] at h
      · rcases ih h with ⟨h1, h2, h3⟩
        exact ⟨by omega, h2, h3⟩
      · obtain ⟨hj, -⟩ : i = j ∧ i + ((s.length - i) - rest.length) = e := by
          simpa using h
        subst hj
        refine ⟨le_refl i, by omega, ?_⟩
        rw [hm]; simp

theorem searchFrom_complete {ci : Bool} {re : Regex} {s : List Char} :
    ∀ fuel i j, i ≤ j → j ≤ s.length → j < i + fuel →
      matchEnds ci (fuelFor re (s.length - j)) re (s.drop j) ≠ [] →
      (searchFrom ci re s i fuel).isSome = true := by
  intro fuel
  induction fuel with
  | zero => intro i j h1 h2 h3 _; omega
  | succ fuel ih =>
    intro i j hij hjs hlt hne
    rw [searchFrom]
    have hlen : ¬ s.length < i := by omega
    rw [if_neg hlen]
    rcases hm : matchEnds ci (fuelFor re (s.length - i)) re (s.drop i) with _ | ⟨rest, tail⟩
    · have hij' : i ≠ j := by
        intro he; subst he; exact hne hm
      exact ih (i + 1) j (by omega) hjs (by omega) hne
    · simp

/-- A successful test on a piece extends to a successful test on any string
that contains the piece contiguously. -/
theorem testRe_append (ci : Bool) (re : Regex) (m pre post : List Char)
    (h : testRe ci re m = true) : testRe ci re (pre ++ (m ++ post)) = true := by
  unfold testRe at h ⊢
  rcases ho : searchFrom ci re m 0 (m.length + 1) with _ | ⟨j, e⟩
  · rw [ho] at h; simp at h
  · rcases searchFrom_some ho with ⟨_, hj, hne⟩
    rcases List.exists_mem_of_ne_nil _ hne with ⟨w, hw⟩
    have hw2 : w ++ post ∈ matchEnds ci (fuelFor re (m.length - j)) re (m.drop j ++ post) :=
      matchEnds_append ci _ re (m.drop j) post w hw
    set S := pre ++ (m ++ post) with hS
    have hdropS : S.drop (pre.length + j) = m.drop j ++ post := by
      rw [hS, List.drop_append_eq_append_drop]
      have h1 : pre.length + j - pre.length = j := by omega
      have h2 : pre.drop (pre.length + j) = [] := by
        apply List.drop_eq_nil_of_le; omega
      rw [h2, h1, List.nil_append]
      rw [List.drop_append_eq_append_drop]
      have h3 : List.drop j m ++ List.drop (j - m.length) post = List.drop j m ++ post := by
        congr 1
        have : j - m.length = 0 := by omega
        rw [this, List.drop_zero]
      exact h3
    have hSlen : S.length = pre.length + m.length + post.length := by
      rw [hS]; simp [List.length_append]; omega
    have hfle : fuelFor re (m.length - j) ≤ fuelFor re (S.length - (pre.length + j)) := by
      apply fuelFor_mono; omega
    have hw3 : w ++ post ∈ matchEnds ci (fuelFor re (S.length - (pre.length + j))) re
        (S.drop (pre.length + j)) := by
      rw [hdropS]
      exact matchEnds_mono ci _ _ re (m.drop j ++ post) (w ++ post) hfle hw2
    apply searchFrom_complete (S.length + 1) 0 (pre.length + j) (by omega) (by omega) (by omega)
    intro hnil
    rw [hnil] at hw3
    exact absurd hw3 (List.not_mem_nil _)

/-- A successful test on a `sub`-piece of `s` extends to `s` itself. -/
theorem testRe_sub (ci : Bool) (re : Regex) (s part : List Char) (a b : Nat)
    (hpart : part = sub s a b) (h : testRe ci re part = true) : testRe ci re s = true := by
  have hs : s = s.take a ++ (part ++ (s.drop a).drop (b - a)) := by
    rw [hpart, sub, List.take_append_drop, List.take_append_drop]
  rw [hs]
  exact testRe_append ci re part (s.take a) ((s.drop a).drop (b - a)) h

/-! ### Structural lemmas about the component pipeline -/

theorem attachRefs_subset :
    ∀ rs part hits, attachRefs rs part = some hits → ∀ r ∈ hits, r ∈ rs := by
  intro rs
  induction rs with
  | nil =>
    intro part hits h r hr
    simp only [attachRefs] at h
    obtain rfl : ([] : List Reference) = hits := by simpa using h
    simp at hr
  | cons r0 rs ih =>
    intro part hits h r hr
    simp only [attachRefs] at h
    rcases hp : parseRegex r0.sqlSnippet with _ | re <;> rw [hp] at h
    · simp at h
    · rcases ha : attachRefs rs part with _ | tail <;> rw [ha] at h
      · simp at h
      · obtain rfl : (if testRe false re part then r0 :: tail else tail) = hits := by
          simpa using h
        by_cases ht : testRe false re part = true
        · rw [if_pos ht] at hr
          rcases List.mem_cons.mp hr with h1 | h1
          · exact List.mem_cons.mpr (Or.inl h1)
          · exact List.mem_cons.mpr (Or.inr (ih part tail ha r h1))
        · rw [if_neg ht] at hr
          exact List.mem_cons.mpr (Or.inr (ih part tail ha r hr))

theorem attachRefs_mem :
    ∀ rs part hits, attachRefs rs part = some hits → ∀ r ∈ hits,
      ∃ re, parseRegex r.sqlSnippet = some re ∧ testRe false re part = true := by
  intro rs
  induction rs with
  | nil =>
    intro part hits h r hr
    simp only [attachRefs] at h
    obtain rfl : ([] : List Reference) = hits := by simpa using h
    simp at hr
  | cons r0 rs ih =>
    intro part hits h r hr
    simp only [attachRefs] at h
    rcases hp : parseRegex r0.sqlSnippet with _ | re <;> rw [hp] at h
    · simp at h
    · rcases ha : attachRefs rs part with _ | tail <;> rw [ha] at h
      · simp at h
      · obtain rfl : (if testRe false re part then r0 :: tail else tail) = hits := by
          simpa using h
        by_cases ht : testRe false re part = true
        · rw [if_pos ht] at hr
          rcases List.mem_cons.mp hr with h1 | h1
          · exact ⟨re, by rw [h1]; exact hp, ht⟩
          · exact ih part tail ha r h1
        · rw [if_neg ht] at hr
          exact ih part tail ha r hr

theorem classify_texts (re : Regex) (rs : List Reference) :
    ∀ parts li segs, classify re rs parts li = some segs →
      segs.map segText = parts := by
  intro parts
  induction parts with
  | nil =>
    intro li segs h
    obtain rfl : ([] : List Segment) = segs := by simpa [classify] using h
    simp
  | cons part parts ih =>
    intro li segs h
    rcases ht : testG true re part li with ⟨b, li2⟩
    cases b with
    | true =>
      simp only [classify, ht] at h
      rcases ha : attachRefs rs part with _ | hits
      · simp [ha] at h
      · simp only [ha] at h
        rcases hc : classify re rs parts li2 with _ | tail
        · simp [hc] at h
        · simp only [hc] at h
          obtain rfl : Segment.matched part hits :: tail = segs := by simpa using h
          simp [segText, ih li2 tail hc]
    | false =>
      simp only [classify, ht] at h
      rcases hc : classify re rs parts li2 with _ | tail
      · simp [hc] at h
      · simp only [hc] at h
        obtain rfl : Segment.plain part :: tail = segs := by simpa using h
        simp [segText, ih li2 tail hc]

theorem classify_seg (re : Regex) (rs : List Reference) :
    ∀ parts li segs, classify re rs parts li = some segs → ∀ seg ∈ segs,
      segRefs seg = [] ∨ ∃ part, part ∈ parts ∧ segText seg = part ∧
        ∃ hits, attachRefs rs part = some hits ∧ segRefs seg = hits := by
  intro parts
  induction parts with
  | nil =>
    intro li segs h seg hseg
    obtain rfl : ([] : List Segment) = segs := by simpa [classify] using h
    simp at hseg
  | cons part parts ih =>
    intro li segs h seg hseg
    rcases ht : testG true re part li with ⟨b, li2⟩
    cases b with
    | true =>
      simp only [classify, ht] at h
      rcases ha : attachRefs rs part with _ | hits
      · simp [ha] at h
      · simp only [ha] at h
        rcases hc : classify re rs parts li2 with _ | tail
        · simp [hc] at h
        · simp only [hc] at h
          obtain rfl : Segment.matched part hits :: tail = segs := by simpa using h
          rcases List.mem_cons.mp hseg with h1 | h1
          · refine Or.inr ⟨part, List.mem_cons_self _ _, ?_, hits, ha, ?_⟩
            · rw [h1]; rfl
            · rw [h1]; rfl
          · rcases ih li2 tail hc seg h1 with h2 | ⟨part2, hp2, htx2, hits2, ha2, he2⟩
            · exact Or.inl h2
            · exact Or.inr ⟨part2, List.mem_cons_of_mem _ hp2, htx2, hits2, ha2, he2⟩
    | false =>
      simp only [classify, ht] at h
      rcases hc : classify re rs parts li2 with _ | tail
      · simp [hc] at h
      · simp only [hc] at h
        obtain rfl : Segment.plain part :: tail = segs := by simpa using h
        rcases List.mem_cons.mp hseg with h1 | h1
        · exact Or.inl (by rw [h1]; rfl)
        · rcases ih li2 tail hc seg h1 with h2 | ⟨part2, hp2, htx2, hits2, ha2, he2⟩
          · exact Or.inl h2
          · exact Or.inr ⟨part2, List.mem_cons_of_mem _ hp2, htx2, hits2, ha2, he2⟩

theorem processGroups_mem (sqlArray : List (List Char)) :
    ∀ gs asgn, processGroups sqlArray gs = some asgn → ∀ k v, (k, v) ∈ asgn →
      ∃ rs, (k, rs) ∈ gs ∧ processLine sqlArray k rs = some v := by
  intro gs
  induction gs with
  | nil =>
    intro asgn h k v hkv
    obtain rfl : ([] : List (Int × List Segment)) = asgn := by simpa [processGroups] using h
    simp at hkv
  | cons g gs ih =>
    intro asgn h k v hkv
    rcases g with ⟨L, rs⟩
    rw [processGroups] at h
    rcases hp : processLine sqlArray L rs with _ | segs <;> rw [hp] at h
    · simp at h
    · rcases hg : processGroups sqlArray gs with _ | tail <;> rw [hg] at h
      · simp at h
      · obtain rfl : (L, segs) :: tail = asgn := by simpa using h
        rcases List.mem_cons.mp hkv with h1 | h1
        · simp only [Prod.mk.injEq] at h1
          obtain ⟨rfl, rfl⟩ := h1
          exact ⟨rs, List.mem_cons_self _ _, hp⟩
        · rcases ih tail hg k v h1 with ⟨rs2, hmem, hpl⟩
          exact ⟨rs2, List.mem_cons_of_mem _ hmem, hpl⟩

theorem processGroups_none (sqlArray : List (List Char)) :
    ∀ gs, (∃ L rs, (L, rs) ∈ gs ∧ processLine sqlArray L rs = none) →
      processGroups sqlArray gs = none := by
  intro gs
  induction gs with
  | nil => intro ⟨L, rs, hmem, _⟩; simp at hmem
  | cons g gs ih =>
    intro ⟨L, rs, hmem, hnone⟩
    rcases g with ⟨L0, rs0⟩
    rw [processGroups]
    rcases List.mem_cons.mp hmem with h1 | h1
    · simp only [Prod.mk.injEq] at h1
      obtain ⟨rfl, rfl⟩ := h1
      rw [hnone]
    · rcases hp : processLine sqlArray L0 rs0 with _ | segs
      · rfl
      · rw [ih ⟨L, rs, h1, hnone⟩]

theorem dedupFirstGo_mem :
    ∀ l seen x, x ∈ l → x ∉ seen → x ∈ dedupFirstGo seen l := by
  intro l
  induction l with
  | nil => intro seen x hx _; simp at hx
  | cons y l ih =>
    intro seen x hx hns
    rw [dedupFirstGo]
    by_cases hy : y ∈ seen
    · rw [if_pos hy]
      rcases List.mem_cons.mp hx with h1 | h1
      · exact absurd (h1 ▸ hy) hns
      · exact ih seen x h1 hns
    · rw [if_neg hy]
      rcases List.mem_cons.mp hx with h1 | h1
      · exact List.mem_cons.mpr (Or.inl h1)
      · by_cases hxy : x = y
        · exact List.mem_cons.mpr (Or.inl hxy)
        · refine List.mem_cons.mpr (Or.inr (ih (y :: seen) x h1 ?_))
          intro hmem
          rcases List.mem_cons.mp hmem with h2 | h2
          · exact hxy h2
          · exact hns h2

theorem dedupFirst_mem (l : List Int) (x : Int) (hx : x ∈ l) : x ∈ dedupFirst l :=
  dedupFirstGo_mem l [] x hx (by simp)

theorem groupsFor_mem (refs : List Reference) (k : Int) (rs : List Reference)
    (h : (k, rs) ∈ groupsFor refs) : rs = refs.filter (fun r => lineOf r == k) := by
  unfold groupsFor at h
  rcases List.mem_map.mp h with ⟨L, _, hL⟩
  simp only [Prod.mk.injEq] at hL
  obtain ⟨rfl, rfl⟩ := hL
  rfl

theorem groupsFor_complete (refs : List Reference) (r : Reference) (hr : r ∈ refs) :
    (lineOf r, refs.filter (fun x => lineOf x == lineOf r)) ∈ groupsFor refs := by
  unfold groupsFor
  apply List.mem_map.mpr
  exact ⟨lineOf r, dedupFirst_mem _ _ (List.mem_map.mpr ⟨r, hr, rfl⟩), rfl⟩

theorem lookupLine_mem :
    ∀ asgn k v, lookupLine asgn k = some v → (k, v) ∈ asgn := by
  intro asgn
  induction asgn with
  | nil => intro k v h; simp [lookupLine] at h
  | cons e asgn ih =>
    intro k v h
    rcases e with ⟨k0, v0⟩
    rw [lookupLine] at h
    by_cases hk : k0 = k
    · rw [if_pos hk] at h
      obtain rfl : v0 = v := by simpa using h
      exact List.mem_cons.mpr (Or.inl (by rw [hk]))
    · rw [if_neg hk] at h
      exact List.mem_cons.mpr (Or.inr (ih k v h))

theorem getLine?_some {lines : List (List Char)} {idx : Int} {text : List Char}
    (h : getLine? lines idx = some text) :
    0 ≤ idx ∧ idx < Int.ofNat lines.length ∧ text = lines.getD idx.toNat [] := by
  unfold getLine? at h
  by_cases hb : 0 ≤ idx ∧ idx < Int.ofNat lines.length
  · rw [if_pos hb] at h
    exact ⟨hb.1, hb.2, by simpa using h.symm⟩
  · rw [if_neg hb] at h
    exact absurd h (by simp)

theorem getLine?_none {lines : List (List Char)} {idx : Int}
    (h : idx < 0 ∨ Int.ofNat lines.length ≤ idx) : getLine? lines idx = none := by
  unfold getLine?
  rw [if_neg]
  intro ⟨h1, h2⟩
  omega

theorem buildContent_length (sqlArray : List (List Char)) (asgn : List (Int × List Segment)) :
    (buildContent sqlArray asgn).length = sqlArray.length := by
  simp [buildContent]

theorem buildContent_get? (sqlArray : List (List Char)) (asgn : List (Int × List Segment))
    (i : Nat) (hi : i < sqlArray.length) :
    (buildContent sqlArray asgn).get? i = some
      (match lookupLine asgn (Int.ofNat i + 1) with
       | some segs => segs
       | none => [Segment.plain (sqlArray.getD i [])]) := by
  unfold buildContent
  rw [List.get?_map, List.get?_range hi]
  rfl

theorem buildContent_mem (sqlArray : List (List Char)) (asgn : List (Int × List Segment))
    (segs : List Segment) (h : segs ∈ buildContent sqlArray asgn) :
    ∃ i, i < sqlArray.length ∧ segs =
      (match lookupLine asgn (Int.ofNat i + 1) with
       | some s => s
       | none => [Segment.plain (sqlArray.getD i [])]) := by
  unfold buildContent at h
  rcases List.mem_map.mp h with ⟨i, hi, hs⟩
  exact ⟨i, List.mem_range.mp hi, hs.symm⟩

theorem filter_idem {α : Type} (p : α → Bool) :
    ∀ l : List α, (l.filter p).filter p = l.filter p := by
  intro l
  induction l with
  | nil => rfl
  | cons x l ih =>
    by_cases hx : p x = true
    · simp [List.filter_cons, hx, ih]
    · simp [List.filter_cons, hx, ih]

/-! ### The snippet pattern builder agrees with its character-wise description -/

theorem replaceAllChar_append (c : Char) (rep : List Char) :
    ∀ a b, replaceAllChar c rep (a ++ b) =
      replaceAllChar c rep a ++ replaceAllChar c rep b := by
  intro a
  induction a with
  | nil => intro b; simp [replaceAllChar]
  | cons x xs ih =>
    intro b
    by_cases hx : x = c <;> simp [replaceAllChar, hx, ih]

theorem replaceAllWs_append (rep : List Char) :
    ∀ a b, replaceAllWs rep (a ++ b) = replaceAllWs rep a ++ replaceAllWs rep b := by
  intro a
  induction a with
  | nil => intro b; simp [replaceAllWs]
  | cons x xs ih =>
    intro b
    by_cases hx : isWS x = true <;> simp [replaceAllWs, hx, ih]

theorem optimizedSnippet_cons (c : Char) (cs : List Char) :
    optimizedSnippet (c :: cs) = snippetCharRule c ++ optimizedSnippet cs := by
  have hA : replaceAllChar '(' ['\\', '(', '?'] (c :: cs) =
      (if c = '(' then ['\\', '(', '?'] else [c]) ++
        replaceAllChar '(' ['\\', '(', '?'] cs := by
    rw [replaceAllChar]
    by_cases h : c = '(' <;> simp [h]
  rw [optimizedSnippet, hA, replaceAllChar_append, replaceAllWs_append]
  rw [show replaceAllWs ['\\', 's', '*']
      (replaceAllChar ')' ['\\', ')', '?'] (replaceAllChar '(' ['\\', '(', '?'] cs)) =
      optimizedSnippet cs from rfl]
  congr 1
  unfold snippetCharRule
  by_cases h1 : c = '('
  · subst h1; decide
  · rw [if_neg h1, if_neg h1]
    by_cases h2 : c = ')'
    · subst h2; decide
    · rw [if_neg h2]
      by_cases h3 : isWS c = true
      · simp [replaceAllChar, replaceAllWs, h2, h3]
      · simp [replaceAllChar, replaceAllWs, h2, h3]

theorem optimizedSnippet_eq_spec : ∀ s, optimizedSnippet s = optimizedSnippetSpec s := by
  intro s
  induction s with
  | nil => rfl
  | cons c cs ih =>
    rw [optimizedSnippet_cons, ih]
    simp [optimizedSnippetSpec]

/-! ### Destructuring helpers for the top-level pipeline -/

theorem annotate_some {sql : List Char} {refs : List Reference} {out : List (List Segment)}
    (h : annotate sql refs = some out) :
    ∃ asgn, processGroups (splitNl sql)
        (groupsFor (refs.filter (fun r => r.sqlLocation.isSome))) = some asgn ∧
      out = buildContent (splitNl sql) asgn := by
  simp only [annotate] at h
  rcases hpg : processGroups (splitNl sql)
      (groupsFor (refs.filter (fun r => r.sqlLocation.isSome))) with _ | asgn
  · simp [hpg] at h
  · simp only [hpg] at h
    exact ⟨asgn, rfl, (Option.some.inj h).symm⟩

theorem processLine_some {sqlArray : List (List Char)} {L : Int} {rs : List Reference}
    {segs : List Segment} (h : processLine sqlArray L rs = some segs) :
    ∃ re text, parseRegex (combinedPattern rs) = some re ∧
      getLine? sqlArray (L - 1) = some text ∧
      classify re rs (splitCapture true re text) 0 = some segs := by
  unfold processLine at h
  rcases hp : parseRegex (combinedPattern rs) with _ | re
  · simp [hp] at h
  · simp only [hp] at h
    rcases hg : getLine? sqlArray (L - 1) with _ | text
    · simp [hg] at h
    · simp only [hg] at h
      exact ⟨re, text, rfl, rfl, h⟩

theorem getLines0_none : ∀ refs : List Reference,
    (∃ r ∈ refs, r.sqlLocation = none) → getLines0 refs = none := by
  intro refs
  induction refs with
  | nil => intro ⟨r, hr, _⟩; simp at hr
  | cons r0 rest ih =>
    intro ⟨r, hr, hnone⟩
    rcases List.mem_cons.mp hr with h1 | h1
    · subst h1
      simp [getLines0, hnone]
    · rcases hs : r0.sqlLocation with _ | loc
      · simp [getLines0, hs]
      · simp [getLines0, hs, ih ⟨r, h1, hnone⟩]

/-! ### Claim theorems -/

/-- Demonstration references used in the concrete theorems and witnesses. -/
def refSel : Reference := ⟨1, "X", "SELECT".data, some ⟨1⟩⟩

def refA : Reference := ⟨1, "X", "a".data, some ⟨1⟩⟩

def refZ : Reference := ⟨2, "X", "z".data, some ⟨1⟩⟩

def refL2 : Reference := ⟨3, "X", "a".data, some ⟨2⟩⟩

def refAB : Reference := ⟨4, "X", "A B".data, some ⟨1⟩⟩

def refNoLoc : Reference := ⟨9, "X", "x".data, none⟩

/-- C1: for every sql string and references list, whenever the component
returns output, each output line's segments concatenated in order
reproduce the corresponding line of the input exactly - no character is
dropped, duplicated, trimmed or case-normalised. -/
theorem reconstruction (sql : List Char) (refs : List Reference)
    (out : List (List Segment)) (h : annotate sql refs = some out) :
    out.length = (splitNl sql).length ∧
      ∀ i segs line, out.get? i = some segs → (splitNl sql).get? i = some line →
        concatTexts segs = line := by
  obtain ⟨asgn, hpg, rfl⟩ := annotate_some h
  refine ⟨buildContent_length _ _, ?_⟩
  intro i segs line hsegs hline
  have hi : i < (splitNl sql).length := (List.get?_eq_some.mp hline).choose
  have hlineD : (splitNl sql).getD i [] = line := by
    rw [List.getD_eq_getElem?_getD, ← List.get?_eq_getElem?, hline]; rfl
  rw [buildContent_get? _ _ i hi] at hsegs
  rcases hlk : lookupLine asgn (Int.ofNat i + 1) with _ | s2
  · simp only [hlk] at hsegs
    obtain rfl := Option.some.inj hsegs
    have hpt : concatTexts [Segment.plain ((splitNl sql).getD i [])] =
        (splitNl sql).getD i [] := by
      simp [concatTexts, concatL, segText]
    rw [hpt]
    exact hlineD
  · simp only [hlk] at hsegs
    obtain rfl := Option.some.inj hsegs
    obtain ⟨rs, hmemg, hpl⟩ := processGroups_mem _ _ _ hpg _ _ (lookupLine_mem _ _ _ hlk)
    obtain ⟨re, text, hre, hget, hcl⟩ := processLine_some hpl
    have hidx : Int.ofNat i + 1 - 1 = Int.ofNat i := by omega
    rw [hidx] at hget
    obtain ⟨-, -, htext⟩ := getLine?_some hget
    have htl : text = line := by
      rw [htext]
      simpa using hlineD
    rw [concatTexts, classify_texts _ _ _ _ _ hcl, splitCapture_concat, htl]

/-- C5: line-scoping - whenever the component returns output, any reference
attached to a segment of output line `i` (0-based) declares exactly the
line number `i + 1`; a reference never attaches to another line's segment
even if its snippet also occurs there. -/
theorem line_scoping (sql : List Char) (refs : List Reference)
    (out : List (List Segment)) (h : annotate sql refs = some out)
    (i : Nat) (segs : List Segment) (hsegs : out.get? i = some segs)
    (seg : Segment) (hseg : seg ∈ segs) (r : Reference) (hr : r ∈ segRefs seg) :
    ∃ loc, r.sqlLocation = some loc ∧ loc.line = Int.ofNat i + 1 := by
  obtain ⟨asgn, hpg, rfl⟩ := annotate_some h
  have hi : i < (splitNl sql).length := by
    have h1 := (List.get?_eq_some.mp hsegs).choose
    rwa [buildContent_length] at h1
  rw [buildContent_get? _ _ i hi] at hsegs
  rcases hlk : lookupLine asgn (Int.ofNat i + 1) with _ | s2
  · simp only [hlk] at hsegs
    obtain rfl := Option.some.inj hsegs
    rcases List.mem_singleton.mp hseg with rfl
    exact absurd hr (List.not_mem_nil r)
  · simp only [hlk] at hsegs
    obtain rfl := Option.some.inj hsegs
    obtain ⟨rs, hmemg, hpl⟩ := processGroups_mem _ _ _ hpg _ _ (lookupLine_mem _ _ _ hlk)
    obtain ⟨re, text, hre, hget, hcl⟩ := processLine_some hpl
    rcases classify_seg _ _ _ _ _ hcl seg hseg with hempty | ⟨part, hparts, -, hits, hat, hrefs⟩
    · rw [hempty] at hr
      exact absurd hr (List.not_mem_nil r)
    · rw [hrefs] at hr
      have hrin : r ∈ rs := attachRefs_subset _ _ _ hat r hr
      rw [groupsFor_mem _ _ _ hmemg] at hrin
      obtain ⟨hrv, hline⟩ := List.mem_filter.mp hrin
      obtain ⟨-, hsome⟩ := List.mem_filter.mp hrv
      rcases hloc : r.sqlLocation with _ | loc
      · rw [hloc] at hsome
        simp at hsome
      · refine ⟨loc, rfl, ?_⟩
        have heq : lineOf r = Int.ofNat i + 1 := by simpa using hline
        simp only [lineOf, hloc] at heq
        exact heq

/-- C7: a reference whose raw snippet regex finds no match on its declared
line appears in no segment's reference list anywhere in the output
(whenever the component returns output; the development-flag diagnostic is
a console side effect that does not alter the returned markup). -/
theorem unmatched_ref (sql : List Char) (refs : List Reference)
    (out : List (List Segment)) (r : Reference) (h : annotate sql refs = some out)
    (hr : r ∈ refs) (hu : snippetUnmatchedOnOwnLine sql r = true) :
    ∀ segs ∈ out, ∀ seg ∈ segs, r ∉ segRefs seg := by
  obtain ⟨asgn, hpg, rfl⟩ := annotate_some h
  intro segs hsegs seg hseg hmem
  obtain ⟨i, hi, hform⟩ := buildContent_mem _ _ _ hsegs
  rcases hlk : lookupLine asgn (Int.ofNat i + 1) with _ | s2
  · rw [hlk] at hform
    subst hform
    rcases List.mem_singleton.mp hseg with rfl
    exact absurd hmem (List.not_mem_nil r)
  · rw [hlk] at hform
    subst hform
    obtain ⟨rs, hmemg, hpl⟩ := processGroups_mem _ _ _ hpg _ _ (lookupLine_mem _ _ _ hlk)
    obtain ⟨re, text, hre, hget, hcl⟩ := processLine_some hpl
    rcases classify_seg _ _ _ _ _ hcl seg hseg with hempty | ⟨part, hparts, -, hits, hat, hrefs⟩
    · rw [hempty] at hmem
      exact absurd hmem (List.not_mem_nil r)
    · rw [hrefs] at hmem
      obtain ⟨re2, hre2, htest⟩ := attachRefs_mem _ _ _ hat r hmem
      have hrin : r ∈ rs := attachRefs_subset _ _ _ hat r hmem
      rw [groupsFor_mem _ _ _ hmemg] at hrin
      obtain ⟨hrv, hline⟩ := List.mem_filter.mp hrin
      rcases hloc : r.sqlLocation with _ | loc
      · obtain ⟨-, hsome⟩ := List.mem_filter.mp hrv
        rw [hloc] at hsome
        simp at hsome
      · have heq : lineOf r = Int.ofNat i + 1 := by simpa using hline
        simp only [lineOf, hloc] at heq
        -- the part tested is a contiguous piece of the declared line's text
        obtain ⟨a, b, hpart⟩ := splitCapture_sub true re text part hparts
        have htline : testRe false re2 text = true := testRe_sub false re2 text part a b hpart htest
        -- contradict the no-occurrence hypothesis
        simp only [snippetUnmatchedOnOwnLine, hloc] at hu
        have hget' : getLine? (splitNl sql) (loc.line - 1) = some text := by
          rw [heq]
          have hidx : Int.ofNat i + 1 - 1 = Int.ofNat i := by omega
          rw [hidx]
          have hidx2 : Int.ofNat i + 1 - 1 = Int.ofNat i := by omega
          rw [hidx2] at hget
          exact hget
        simp only [hget', hre2, htline] at hu
        simp at hu

/-- C3 (amended): a reference carrying a `sqlLocation` whose line number is
out of bounds (less than 1 or greater than the line count) does not get
silently dropped - the component fails: `sqlArray[lineIndex]` is
`undefined` and the call of `.split` on it throws. -/
theorem oob_line_errors (sql : List Char) (refs : List Reference)
    (r : Reference) (loc : SqlLocation) (hr : r ∈ refs) (hloc : r.sqlLocation = some loc)
    (hoob : loc.line < 1 ∨ Int.ofNat (splitNl sql).length < loc.line) :
    annotate sql refs = none := by
  have hrv : r ∈ refs.filter (fun x => x.sqlLocation.isSome) :=
    List.mem_filter.mpr ⟨hr, by simp [hloc]⟩
  have hmemg := groupsFor_complete _ r hrv
  have hlineOf : lineOf r = loc.line := by rw [lineOf, hloc]
  have hplnone : processLine (splitNl sql) (lineOf r)
      ((refs.filter (fun x => x.sqlLocation.isSome)).filter
        (fun x => lineOf x == lineOf r)) = none := by
    unfold processLine
    rcases hp : parseRegex (combinedPattern _) with _ | re
    · rfl
    · have hg : getLine? (splitNl sql) (lineOf r - 1) = none := by
        apply getLine?_none
        rw [hlineOf]
        omega
      simp [hg]
  have hnone := processGroups_none (splitNl sql) _
    ⟨lineOf r, _, hmemg, hplnone⟩
  simp only [annotate, hnone]

/-- C6: references lacking a `sqlLocation` are silently excluded before
matching: the component behaves exactly as if they were absent, and when
no reference has a location it returns normally with every line passed
through as a single plain segment. -/
theorem invalid_location_excluded :
    (∀ sql refs, annotate sql refs =
      annotate sql (refs.filter (fun r => r.sqlLocation.isSome))) ∧
    (∀ sql refs, (∀ r ∈ refs, r.sqlLocation = none) →
      annotate sql refs = some (passthrough sql)) := by
  constructor
  · intro sql refs
    simp only [annotate, filter_idem]
  · intro sql refs hall
    have hfil : refs.filter (fun r => r.sqlLocation.isSome) = [] := by
      rw [List.filter_eq_nil]
      intro r hr
      simp [hall r hr]
    simp only [annotate, hfil]
    show some (buildContent (splitNl sql) []) = some (passthrough sql)
    congr 1
    unfold buildContent passthrough
    apply List.ext_getElem
    · simp
    · intro i h1 h2
      simp only [List.getElem_map, List.getElem_range]
      have hlt : i < (splitNl sql).length := by simpa using h2
      show [Segment.plain ((splitNl sql).getD i [])] = _
      rw [List.getD_eq_getElem _ _ hlt]

/-- C2 (counterexample): snippet `SELECT` on line text `select` (same
occurrence up to letter case) is emitted as a matched segment, but that
segment's reference list does not include the reference - the association
retest compiles the raw snippet case-sensitively. -/
theorem case_insensitive_cex :
    annotate "select".data [refSel] =
      some [[Segment.plain [], Segment.matched "select".data [], Segment.plain []]] ∧
    refSel ∉ segRefs (Segment.matched "select".data []) :=
  ⟨by decide, by decide⟩

/-- C2 (amended): matching is case-insensitive only for segmentation and
classification - snippet `SELECT` against line `select` is emitted as a
matched segment - while reference association is case-sensitive: in every
output the component returns, a reference is included in a matched
segment's reference list only if its raw snippet, compiled as an unflagged
regex, matches the segment's text; hence the case-differing occurrence's
segment omits the reference and the original-casing occurrence includes
it. -/
theorem case_insensitive_amended :
    (∀ sql refs out, annotate sql refs = some out →
      ∀ segs ∈ out, ∀ seg ∈ segs, ∀ r ∈ segRefs seg,
        ∃ re, parseRegex r.sqlSnippet = some re ∧
          testRe false re (segText seg) = true) ∧
    annotate "select".data [refSel] =
      some [[Segment.plain [], Segment.matched "select".data [], Segment.plain []]] ∧
    annotate "SELECT".data [refSel] =
      some [[Segment.plain [], Segment.matched "SELECT".data [refSel], Segment.plain []]] := by
  refine ⟨?_, by decide, by decide⟩
  intro sql refs out h segs hsegs seg hseg r hr
  obtain ⟨asgn, hpg, rfl⟩ := annotate_some h
  obtain ⟨i, hi, hform⟩ := buildContent_mem _ _ _ hsegs
  rcases hlk : lookupLine asgn (Int.ofNat i + 1) with _ | s2
  · rw [hlk] at hform
    subst hform
    rcases List.mem_singleton.mp hseg with rfl
    exact absurd hr (List.not_mem_nil r)
  · rw [hlk] at hform
    subst hform
    obtain ⟨rs, hmemg, hpl⟩ := processGroups_mem _ _ _ hpg _ _ (lookupLine_mem _ _ _ hlk)
    obtain ⟨re, text, hre, hget, hcl⟩ := processLine_some hpl
    rcases classify_seg _ _ _ _ _ hcl seg hseg with hempty | ⟨part, hparts, htext, hits, hat, hrefs⟩
    · rw [hempty] at hr
      exact absurd hr (List.not_mem_nil r)
    · rw [hrefs] at hr
      obtain ⟨re2, hre2, htest⟩ := attachRefs_mem _ _ _ hat r hr
      exact ⟨re2, hre2, by rw [htext]; exact htest⟩

theorem case_insensitive_witness :
    annotate "SELECT".data [refSel] =
      some [[Segment.plain [], Segment.matched "SELECT".data [refSel], Segment.plain []]] ∧
    ∃ re, parseRegex refSel.sqlSnippet = some re ∧
      testRe false re (segText (Segment.matched "SELECT".data [refSel])) = true :=
  ⟨by decide,
   case_insensitive_amended.1 "SELECT".data [refSel]
     [[Segment.plain [], Segment.matched "SELECT".data [refSel], Segment.plain []]] (by decide)
     [Segment.plain [], Segment.matched "SELECT".data [refSel], Segment.plain []] (by decide)
     (Segment.matched "SELECT".data [refSel]) (by decide) refSel (by decide)⟩

/-- C4: the built pattern is exactly the snippet transformed character by
character - `(` to optional escaped open-paren, `)` to optional escaped
close-paren, whitespace to zero-or-more-whitespace (the three sequential
global replaces of the source amount to this single pass) - and
consequently `a b` matches `a    b` and a tab-separated `a b`, and `f(x)`
matches both `f(x)` and `fx`. -/
theorem snippet_pattern_builder :
    (∀ s, optimizedSnippet s = optimizedSnippetSpec s) ∧
    optMatches "a b".data "a    b".data = true ∧
    optMatches "a b".data "a\tb".data = true ∧
    optMatches "f(x)".data "f(x)".data = true ∧
    optMatches "f(x)".data "fx".data = true :=
  ⟨optimizedSnippet_eq_spec, by decide, by decide, by decide, by decide⟩

/-- C8 (counterexample): on the empty sql string the component does not
produce zero lines - `''.split('\n')` is `['']`, so it renders one line
(a single plain empty segment), not an empty output. -/
theorem empty_sql_cex :
    annotate [] [] = some [[Segment.plain []]] ∧ annotate [] [] ≠ some [] :=
  ⟨by decide, by decide⟩

/-- C8 (amended): the empty sql string produces one line - the single empty
piece of the newline split - rendered as one plain empty segment. -/
theorem empty_sql_amended :
    annotate [] [] = some (passthrough []) ∧ passthrough [] = [[Segment.plain []]] :=
  ⟨by decide, by decide⟩

/-- C9: there is an input whose output contains a segment classified as
matched whose reference list is empty: the split pattern is
case-insensitive and whitespace-tolerant while the association retest uses
the raw snippet, so snippet `A B` on the line `a  b` yields a matched
segment with no references. -/
theorem matched_segment_empty_refs :
    ∃ sql refs out, annotate sql refs = some out ∧
      ∃ segs ∈ out, ∃ t, Segment.matched t [] ∈ segs :=
  ⟨"a  b".data, [refAB],
    [[Segment.plain [], Segment.matched "a  b".data [], Segment.plain []]],
    by decide,
    [Segment.plain [], Segment.matched "a  b".data [], Segment.plain []], by decide,
    "a  b".data, by decide⟩

/-- C10: the unnamed variant groups by `reference.sqlLocation.line` with no
location filter, so any references list containing an element without a
`sqlLocation` makes it fail (property access on an undefined value)
instead of silently excluding the reference. -/
theorem variant_missing_location_errors (sql : List Char) (refs : List Reference)
    (h : ∃ r ∈ refs, r.sqlLocation = none) : annotateVariant sql refs = none := by
  simp only [annotateVariant, getLines0_none refs h]

/-! ### Witnesses: the theorems with hypotheses, applied at concrete inputs -/

theorem reconstruction_witness :
    annotate "SELECT a FROM t".data [refA] = some [[Segment.plain "SELECT ".data,
      Segment.matched "a".data [refA], Segment.plain " FROM t".data]] ∧
    concatTexts [Segment.plain "SELECT ".data, Segment.matched "a".data [refA],
      Segment.plain " FROM t".data] = "SELECT a FROM t".data :=
  ⟨by decide,
   (reconstruction "SELECT a FROM t".data [refA]
      [[Segment.plain "SELECT ".data, Segment.matched "a".data [refA],
        Segment.plain " FROM t".data]] (by decide)).2 0
      [Segment.plain "SELECT ".data, Segment.matched "a".data [refA],
        Segment.plain " FROM t".data]
      "SELECT a FROM t".data (by decide) (by decide)⟩

theorem line_scoping_witness :
    annotate "x\na".data [refL2] = some [[Segment.plain "x".data],
      [Segment.plain [], Segment.matched "a".data [refL2], Segment.plain []]] ∧
    ∃ loc, refL2.sqlLocation = some loc ∧ loc.line = Int.ofNat 1 + 1 :=
  ⟨by decide,
   line_scoping "x\na".data [refL2]
     [[Segment.plain "x".data],
      [Segment.plain [], Segment.matched "a".data [refL2], Segment.plain []]] (by decide) 1
     [Segment.plain [], Segment.matched "a".data [refL2], Segment.plain []] (by decide)
     (Segment.matched "a".data [refL2]) (by decide) refL2 (by decide)⟩

theorem unmatched_ref_witness :
    annotate "a".data [refA, refZ] =
      some [[Segment.plain [], Segment.matched "a".data [refA], Segment.plain []]] ∧
    ∀ segs ∈ [[Segment.plain [], Segment.matched "a".data [refA], Segment.plain []]],
      ∀ seg ∈ segs, refZ ∉ segRefs seg :=
  ⟨by decide,
   unmatched_ref "a".data [refA, refZ]
     [[Segment.plain [], Segment.matched "a".data [refA], Segment.plain []]] refZ
     (by decide) (by decide) (by decide)⟩

theorem oob_line_errors_witness :
    (refL2 ∈ [refL2] ∧ refL2.sqlLocation = some ⟨2⟩) ∧
    annotate "a".data [refL2] = none :=
  ⟨⟨by decide, rfl⟩,
   oob_line_errors "a".data [refL2] refL2 ⟨2⟩ (by decide) rfl (by decide)⟩

/-- C3 (counterexample): with a single-line sql and a reference declaring
line 2, the component does not return normally - it fails, rather than
dropping the reference and leaving the existing lines unaffected (without
that reference the same sql renders fine). -/
theorem oob_line_cex :
    annotate "a".data [refL2] = none ∧
    annotate "a".data [] = some (passthrough "a".data) :=
  ⟨by decide, by decide⟩

theorem invalid_location_witness :
    annotate "x".data [refNoLoc] =
      annotate "x".data ([refNoLoc].filter (fun r => r.sqlLocation.isSome)) ∧
    annotate "x".data [refNoLoc] = some (passthrough "x".data) :=
  ⟨invalid_location_excluded.1 "x".data [refNoLoc],
   invalid_location_excluded.2 "x".data [refNoLoc] (by decide)⟩

theorem variant_missing_location_witness :
    annotateVariant "x".data [refNoLoc] = none :=
  variant_missing_location_errors "x".data [refNoLoc] ⟨refNoLoc, by decide, rfl⟩

end SqlHl
